import Mathlib

/-!
Verification of the QazaqLit data-aggregation core.

The definitions below are a shallow embedding of the aggregation routines in
`src/utils/dataProcessing.js` (loaded as part of `src/index.js` in this
source drop) and of the decade aggregation inside
`src/components/TemporalTrends.js`.  JavaScript numbers are modelled as `ℚ`
(the algorithms only add, multiply and divide, so they are exact on rational
inputs; the one place the code relies on `NaN` semantics — the
`needsNormalization` sample average of an empty collection — is modelled
explicitly, see `needsNormalization`).  `Math.sqrt` forces the correlation
matrix itself into `ℝ`.  A record field that may be `undefined` in JS is an
`Option`; JS truthiness tests on such fields are spelled out at each use.
-/

namespace QazaqLit

/-- One document row of `document_topic_distributions_with_metadata.csv`
(`Author`, `Year`, `Book Title`, `Topic_1 .. Topic_13`).  The topic-weight
fields are modelled as a function `ℕ → Option ℚ`; the code only ever reads
keys `Topic_1 .. Topic_13`, i.e. arguments `1..13`. -/
structure Doc where
  author : Option String
  year : Option Int
  title : Option String
  w : ℕ → Option ℚ

instance : Inhabited Doc := ⟨⟨none, none, none, fun _ => none⟩⟩

/-- The topic numbers `1..13` that every `for (let j = 1; j <= 13; j++)`
loop in the source iterates over. -/
def topicNums : List ℕ := List.range' 1 13

/-- A document's raw topic-weight total: the `docTotal` accumulation
`if (doc[topicKey] !== undefined) docTotal += doc[topicKey]` — an absent
field contributes nothing, i.e. `0`. -/
def docTotal (d : Doc) : ℚ := (topicNums.map fun j => (d.w j).getD 0).sum

/-- `const sampleSize = Math.min(100, documentTopics.length)`. -/
def sampleSize (docs : List Doc) : ℕ := min 100 docs.length

/-- The sampling loop `for (let i = 0; i < k; i++) sampleTotal += docTotal(docs[i])`,
as an index recursion (`docs.getD i default` is `docs[i]`; every call site
uses `k ≤ docs.length`, so the default is never read). -/
def sampleTotalGo (docs : List Doc) : ℕ → ℚ
  | 0 => 0
  | i + 1 => sampleTotalGo docs i + docTotal (docs.getD i default)

/-- `needsNormalization = (sampleTotal / sampleSize) < 0.95`.  For an empty
collection JS computes `0 / 0 = NaN` and `NaN < 0.95` is `false`, so the
empty case is `false`; that branch is made explicit here because `ℚ`
division would give `0 / 0 = 0` instead. -/
def needsNormalization (docs : List Doc) : Bool :=
  if docs.length = 0 then false
  else decide (sampleTotalGo docs (sampleSize docs) / (sampleSize docs : ℚ) < 19 / 20)

/-- The mean, over the first `min(100, N)` documents, of the per-document
raw topic-weight sums — the quantity the specification's
`needsNormalization` contract speaks about, written independently of the
source's index loop via `List.take`. -/
def specSampleMean (docs : List Doc) : ℚ :=
  ((docs.take (min 100 docs.length)).map docTotal).sum / ((min 100 docs.length : ℕ) : ℚ)

/-- One normalized topic value, from `calculateTopicCorrelations`:
`const val = doc[topicKey] !== undefined ? doc[topicKey] : 0;`
`(needsNormalization && docTotal > 0) ? val / docTotal : val`. -/
def normVal (flag : Bool) (d : Doc) (j : ℕ) : ℚ :=
  let v := (d.w j).getD 0
  if flag = true ∧ 0 < docTotal d then v / docTotal d else v

/-- The normalized 13-vector pushed for one document (list index `i`
holds `Topic_(i+1)`). -/
def normList (flag : Bool) (d : Doc) : List ℚ := topicNums.map (normVal flag d)

/-! ### Helper lemmas -/

theorem list_sum_div (l : List ℚ) (c : ℚ) :
    (l.map fun x => x / c).sum = l.sum / c := by
  induction l with
  | nil => simp
  | cons a t ih => simp [ih, add_div]

theorem list_sum_zero_of_nonneg {l : List ℚ} (h : ∀ x ∈ l, 0 ≤ x)
    (hs : l.sum = 0) : ∀ x ∈ l, x = 0 := by
  induction l with
  | nil => simp
  | cons a t ih =>
    have ha : 0 ≤ a := h a (List.mem_cons_self a t)
    have ht : ∀ x ∈ t, 0 ≤ x := fun x hx => h x (List.mem_cons_of_mem a hx)
    have hts : 0 ≤ t.sum := List.sum_nonneg ht
    have hsum : a + t.sum = 0 := by simpa using hs
    have ha0 : a = 0 := by linarith
    have ht0 : t.sum = 0 := by linarith
    intro x hx
    rcases List.mem_cons.mp hx with rfl | hx
    · exact ha0
    · exact ih ht ht0 x hx

theorem sampleTotalGo_eq_take (docs : List Doc) :
    ∀ k, k ≤ docs.length →
      sampleTotalGo docs k = ((docs.take k).map docTotal).sum := by
  intro k
  induction k with
  | zero => intro _; simp [sampleTotalGo]
  | succ i ih =>
    intro hk
    have hi : i < docs.length := Nat.lt_of_succ_le hk
    have hgd : docs.getD i default = docs.get ⟨i, hi⟩ := by
      simp [List.getD_eq_getElem?_getD, List.getElem?_eq_getElem hi]
    have htake : (List.map docTotal docs).take (i + 1)
        = (List.map docTotal docs).take i ++ [docTotal docs[i]] := by
      rw [List.take_succ]
      simp [List.getElem?_eq_getElem hi]
    rw [sampleTotalGo, ih (Nat.le_of_lt hi), List.map_take, List.map_take, htake,
      List.sum_append]
    simp [List.getD_eq_getElem?_getD, List.getElem?_eq_getElem hi]

/-! ### C5 — the `needsNormalization` decision -/

/-- C5: for a nonempty collection, `needsNormalization` is `true` iff the
mean of the per-document raw topic-weight sums over the first
`min(100, N)` documents is strictly below `0.95`; at exactly `0.95` it is
`false`.  (The nonemptiness hypothesis records that for `N = 0` the sample
mean does not exist — JS computes `0/0 = NaN` there and the code returns
`false`.) -/
theorem needsNormalization_iff_sampleMean (docs : List Doc) (h : docs ≠ []) :
    (needsNormalization docs = true ↔ specSampleMean docs < 19 / 20)
    ∧ (specSampleMean docs = 19 / 20 → needsNormalization docs = false) := by
  have hlen : docs.length ≠ 0 := by
    intro h0; exact h (List.length_eq_zero.mp h0)
  have hmin : min 100 docs.length ≤ docs.length := Nat.min_le_right _ _
  have hgo : sampleTotalGo docs (sampleSize docs)
      = ((docs.take (min 100 docs.length)).map docTotal).sum := by
    simpa [sampleSize] using sampleTotalGo_eq_take docs (min 100 docs.length) hmin
  have hiff : needsNormalization docs = true ↔ specSampleMean docs < 19 / 20 := by
    rw [needsNormalization, if_neg hlen, decide_eq_true_iff, hgo]
    rfl
  refine ⟨hiff, fun heq => ?_⟩
  have : ¬ (specSampleMean docs < 19 / 20) := by rw [heq]; exact lt_irrefl _
  rcases Bool.eq_false_or_eq_true (needsNormalization docs) with hb | hb
  · exact absurd (hiff.mp hb) this
  · exact hb

/-- Concrete instantiation of `needsNormalization_iff_sampleMean`: a
single document with no topic weights has sample mean `0 < 0.95`. -/
theorem needsNormalization_iff_sampleMean_witness :
    (needsNormalization [(default : Doc)] = true
      ↔ specSampleMean [(default : Doc)] < 19 / 20)
    ∧ (specSampleMean [(default : Doc)] = 19 / 20
      → needsNormalization [(default : Doc)] = false) :=
  needsNormalization_iff_sampleMean [default] (by simp)

/-! ### C6 — per-document normalization -/

/-- C6 (amended): with the normalization flag on, a document whose raw
topic-weight sum is positive gets a vector summing to exactly `1` (the
arithmetic is exact over `ℚ`, so "within 1e-9" holds with slack); a
document whose raw sum is exactly `0` keeps its raw weights (missing → 0)
— in particular, if its weights are all nonnegative, every entry is `0`. -/
theorem normList_total (d : Doc) :
    (0 < docTotal d → (normList true d).sum = 1)
    ∧ (docTotal d = 0 → normList true d = topicNums.map fun j => (d.w j).getD 0)
    ∧ (docTotal d = 0 → (∀ j, 0 ≤ (d.w j).getD 0) → ∀ q ∈ normList true d, q = 0) := by
  refine ⟨?_, ?_, ?_⟩
  · intro hT
    have hmap : normList true d
        = (topicNums.map fun j => (d.w j).getD 0).map fun x => x / docTotal d := by
      rw [normList, List.map_map]
      refine List.map_congr_left fun j _ => ?_
      simp [normVal, hT]
    rw [hmap, list_sum_div]
    exact div_self (ne_of_gt hT)
  · intro hT
    refine List.map_congr_left fun j _ => ?_
    simp [normVal, hT]
  · intro hT hnn q hq
    have hmap : normList true d = topicNums.map fun j => (d.w j).getD 0 := by
      refine List.map_congr_left fun j _ => ?_
      simp [normVal, hT]
    rw [hmap] at hq
    refine list_sum_zero_of_nonneg ?_ ?_ q hq
    · intro x hx
      rcases List.mem_map.mp hx with ⟨j, -, rfl⟩
      exact hnn j
    · exact hT

/-- A document carrying the weights `Topic_1 = 1, Topic_2 = -1`, whose raw
topic-weight sum is exactly `0`. -/
def c6negDoc : Doc :=
  ⟨none, none, none, fun j => if j = 1 then some 1 else if j = 2 then some (-1) else none⟩

/-- The document `c6negDoc` sums to `0`, yet its "normalized" vector is the
raw vector, whose first entry is `1`, not `0`: the unqualified "every entry
is 0 when the raw sum is 0" part of the claim fails (the guard keeps the
raw values, it does not zero them). -/
theorem normList_zero_sum_counterexample :
    docTotal c6negDoc = 0 ∧ (normList true c6negDoc).getD 0 0 ≠ 0 := by
  constructor
  · norm_num [docTotal, topicNums, c6negDoc, List.range']
  · norm_num [normList, normVal, docTotal, topicNums, c6negDoc, List.range']

/-- A document whose weights sum to `1`, used to instantiate
`normList_total`. -/
def c6posDoc : Doc :=
  ⟨none, none, none, fun j => if j = 1 then some (1/2) else if j = 2 then some (1/2) else none⟩

theorem normList_total_witness :
    (0 < docTotal c6posDoc ∧ (normList true c6posDoc).sum = 1)
    ∧ normList true (default : Doc) = List.replicate 13 0 :=
  ⟨⟨by norm_num [docTotal, topicNums, c6posDoc, List.range'],
      (normList_total c6posDoc).1 (by norm_num [docTotal, topicNums, c6posDoc, List.range'])⟩,
    ((normList_total default).2.1 (by
        norm_num [docTotal, topicNums, List.range', default, Inhabited.default])).trans (by
      norm_num [topicNums, List.range', default, Inhabited.default, List.replicate])⟩

/-! ### Yearly aggregator — `aggregateBooksByYear` -/

/-- JS truthiness of `doc.Year` in `if (!doc.Year) return;`: the document
is kept only when the year is present and nonzero (`0` is falsy). -/
def truthyYear (d : Doc) : Bool :=
  match d.year with
  | none => false
  | some y => decide (y ≠ 0)

/-- Per-year accumulator: `{count, topicDistribution}` (list index `i`
holds `Topic_(i+1)`). -/
structure YearAgg where
  count : ℕ
  dist : List ℚ
deriving DecidableEq

/-- The zero-initialised 13-slot topic distribution built by
`Array(13).fill(0).reduce(...)`. -/
def zeroDist : List ℚ := List.replicate 13 0

/-- An index-carrying map over a `ℚ` list: slot `i` (0-based) becomes
`f i q`.  Used to model the in-place `for`-loop updates of the 13-slot
distribution objects. -/
def mapWithIdx (f : ℕ → ℚ → ℚ) : ℕ → List ℚ → List ℚ
  | _, [] => []
  | i, q :: qs => f i q :: mapWithIdx f (i + 1) qs

/-- One document's contribution to a running 13-slot sum:
`topicDistribution[Topic_i] += normalizedValue` for `i = 1..13`.  The
source guards each slot with `doc[topicKey] !== undefined`; skipping an
absent field equals adding its `0` contribution, which is what `normVal`
yields there. -/
def addDist (flag : Bool) (d : Doc) (dist : List ℚ) : List ℚ :=
  mapWithIdx (fun i q => q + normVal flag d (i + 1)) 0 dist

/-- Update of `booksByYear[doc.Year]`: create the entry (count 0, zero
distribution, inserted at the end) when missing, then `count++` and add
the document's distribution. -/
def yearUpd (flag : Bool) (d : Doc) (y : Int) :
    List (Int × YearAgg) → List (Int × YearAgg)
  | [] => [(y, ⟨1, addDist flag d zeroDist⟩)]
  | (y', a) :: rest =>
    if y' = y then (y', ⟨a.count + 1, addDist flag d a.dist⟩) :: rest
    else (y', a) :: yearUpd flag d y rest

/-- One `documentTopics.forEach` step of `aggregateBooksByYear`:
`if (!doc.Year) return;` then the per-year update. -/
def yearStep (flag : Bool) (m : List (Int × YearAgg)) (d : Doc) :
    List (Int × YearAgg) :=
  match d.year with
  | none => m
  | some y => if y = 0 then m else yearUpd flag d y m

/-- The accumulation pass of `aggregateBooksByYear`, with the
normalization flag passed explicitly. -/
def booksByYearPre (flag : Bool) (docs : List Doc) : List (Int × YearAgg) :=
  docs.foldl (yearStep flag) []

/-- `aggregateBooksByYear`: decide the flag from the sample, accumulate,
then average (`topicDistribution[topic] /= count`, guarded by
`if (count > 0)`).  The mapping is modelled as an association list; the
source only consumes it through `Object.entries` followed by an explicit
sort, so entry order is immaterial. -/
def aggregateBooksByYear (docs : List Doc) : List (Int × YearAgg) :=
  (booksByYearPre (needsNormalization docs) docs).map fun p =>
    (p.1, ⟨p.2.count,
      if 0 < p.2.count then p.2.dist.map fun q => q / (p.2.count : ℚ)
      else p.2.dist⟩)

theorem yearUpd_counts (flag : Bool) (d : Doc) (y : Int) :
    ∀ m : List (Int × YearAgg),
      ((yearUpd flag d y m).map fun p => p.2.count).sum
        = ((m.map fun p => p.2.count).sum) + 1 := by
  intro m
  induction m with
  | nil => simp [yearUpd]
  | cons hd tl ih =>
    obtain ⟨y', a⟩ := hd
    by_cases hy : y' = y
    · simp [yearUpd, hy]; ring
    · simp [yearUpd, hy, ih]; ring

theorem booksByYear_foldl_counts (flag : Bool) (docs : List Doc) :
    ∀ m : List (Int × YearAgg),
      (((docs.foldl (yearStep flag) m).map fun p => p.2.count).sum)
        = ((m.map fun p => p.2.count).sum) + docs.countP truthyYear := by
  induction docs with
  | nil => intro m; simp
  | cons d tl ih =>
    intro m
    rw [List.foldl_cons, ih, List.countP_cons]
    rcases hd : d.year with - | y
    · simp [yearStep, truthyYear, hd]
    · by_cases hy : y = 0
      · simp [yearStep, truthyYear, hd, hy]
      · simp [yearStep, truthyYear, hd, hy, yearUpd_counts]
        ring

theorem booksByYear_skips_invalid (flag : Bool) (docs : List Doc) :
    ∀ m : List (Int × YearAgg),
      (docs.filter truthyYear).foldl (yearStep flag) m
        = docs.foldl (yearStep flag) m := by
  induction docs with
  | nil => intro m; simp
  | cons d tl ih =>
    intro m
    by_cases hv : truthyYear d
    · rw [List.filter_cons_of_pos hv, List.foldl_cons, List.foldl_cons, ih]
    · rw [List.filter_cons_of_neg hv, List.foldl_cons, ih]
      have : yearStep flag m d = m := by
        rcases hd : d.year with - | y
        · simp [yearStep, hd]
        · have hy : y = 0 := by
            by_contra hy
            exact hv (by simp [truthyYear, hd, hy])
          simp [yearStep, hd, hy]
      rw [this]

/-- C4 (amended): the per-year document counts of `aggregateBooksByYear`
sum to the number of documents with a truthy year (present *and*
nonzero — `!doc.Year` also skips year `0`), and non-truthy documents are
excluded from the whole accumulation. -/
theorem aggregateBooksByYear_count (docs : List Doc) :
    (((aggregateBooksByYear docs).map fun p => p.2.count).sum
        = docs.countP truthyYear)
    ∧ ∀ flag, booksByYearPre flag (docs.filter truthyYear)
        = booksByYearPre flag docs := by
  constructor
  · rw [aggregateBooksByYear, List.map_map]
    have : ((fun p : Int × YearAgg => p.2.count) ∘ fun p : Int × YearAgg =>
        ((p.1, (⟨p.2.count,
          if 0 < p.2.count then p.2.dist.map fun q => q / (p.2.count : ℚ)
          else p.2.dist⟩ : YearAgg)) : Int × YearAgg))
        = fun p : Int × YearAgg => p.2.count := rfl
    rw [this, booksByYearPre, booksByYear_foldl_counts]
    simp
  · intro flag
    exact booksByYear_skips_invalid flag docs []

/-- A document whose `Year` field is present but `0`: it has a defined
year, yet `if (!doc.Year) return;` skips it, so the per-year counts sum
to `0` while the number of defined-year documents is `1` — the claim as
stated fails. -/
theorem yearly_count_counterexample :
    (((aggregateBooksByYear [(⟨none, some 0, none, fun _ => none⟩ : Doc)]).map
        fun p => p.2.count).sum = 0)
    ∧ ([(⟨none, some 0, none, fun _ => none⟩ : Doc)].countP
        fun d => d.year.isSome) = 1 := by
  constructor
  · simp [aggregateBooksByYear, booksByYearPre, yearStep]
  · simp

/-! ### Decade aggregator — `createTemporalVisualization` (TemporalTrends.js) -/

/-- One element of the `yearData` array fed to the decade grouping:
`{year, count, topicDistribution}` (list slot `i` is `Topic_(i+1)`). -/
structure YearItem where
  year : Int
  count : ℕ
  dist : List ℚ
deriving DecidableEq

/-- The per-decade accumulator `{decade, totalBooks, topicSums}`. -/
structure DecAcc where
  decade : Int
  totalBooks : ℕ
  topicSums : List ℚ
deriving DecidableEq

/-- Final per-decade record.  `dominantTopic` stores the `k` of
`"Topic_k"`; `none` models the initial `maxTopic = null`, which the
13-step scan in fact always replaces. -/
structure DecadeAggregate where
  decade : Int
  totalBooks : ℕ
  meanDist : List ℚ
  dominantTopic : Option ℕ
deriving DecidableEq

/-- `Math.floor(yearItem.year / 10) * 10`. -/
def decadeOf (y : Int) : Int := y.fdiv 10 * 10

/-- The decade topic-sum loop
`for (let i = 2; i <= 13; i++) topicSums[Topic_i] += dist[Topic_i] * count`.
The loop starts at `i = 2`, so slot 0 (`Topic_1`) is never added to.  (An
undefined `dist[Topic_i]` is skipped, which equals adding `0`; `getD`
supplies that `0`.) -/
def decAddSums (yi : YearItem) (sums : List ℚ) : List ℚ :=
  mapWithIdx (fun i q => if 1 ≤ i then q + yi.dist.getD i 0 * (yi.count : ℚ) else q) 0 sums

/-- `decadeData[decade]` update: create `{decade, totalBooks: 0, zeros}`
when absent (inserted at the end), then `totalBooks += count` and the
topic-sum loop. -/
def decUpd (yi : YearItem) : List DecAcc → List DecAcc
  | [] => [⟨decadeOf yi.year, yi.count, decAddSums yi zeroDist⟩]
  | a :: rest =>
    if a.decade = decadeOf yi.year then
      ⟨a.decade, a.totalBooks + yi.count, decAddSums yi a.topicSums⟩ :: rest
    else a :: decUpd yi rest

/-- The dominant-topic scan
`for (let i = 1; i <= 13; i++) if (topicSums[Topic_i] > maxValue) ...`
with `maxValue = -Infinity`, `maxTopic = null`: `none` is the combined
null and minus-infinity state, which the first comparison always
replaces. -/
def scanStep (f : ℕ → ℚ) (acc : Option (ℕ × ℚ)) (i : ℕ) : Option (ℕ × ℚ) :=
  match acc with
  | none => some (i, f i)
  | some (k, mv) => if mv < f i then some (i, f i) else some (k, mv)

/-- `decade.dominantTopic`: the scan over topics `1..13`, reading the
(already averaged) `topicSums` slots. -/
def dominantOf (means : List ℚ) : Option ℕ :=
  (topicNums.foldl (scanStep fun j => means.getD (j - 1) 0) none).map Prod.fst

/-- Per-decade finalisation, in source order: divide each slot by
`totalBooks` when positive, then determine the dominant topic from the
averaged sums. -/
def finalizeDec (a : DecAcc) : DecadeAggregate :=
  ⟨a.decade, a.totalBooks,
    if 0 < a.totalBooks then a.topicSums.map fun q => q / (a.totalBooks : ℚ)
    else a.topicSums,
    dominantOf (if 0 < a.totalBooks then a.topicSums.map fun q => q / (a.totalBooks : ℚ)
      else a.topicSums)⟩

def insertAscDec (x : DecadeAggregate) : List DecadeAggregate → List DecadeAggregate
  | [] => [x]
  | b :: bs => if x.decade ≤ b.decade then x :: b :: bs else b :: insertAscDec x bs

/-- `Object.values(decadeData).sort((a, b) => a.decade - b.decade)`:
decades are distinct object keys, so any sort realising the comparator
produces the JS result. -/
def sortAscDec : List DecadeAggregate → List DecadeAggregate
  | [] => []
  | x :: xs => insertAscDec x (sortAscDec xs)

/-- The decade aggregation of `createTemporalVisualization`: group the
year rows into decades, finalise each decade in place, and order the
result ascending by decade. -/
def aggregateByDecade (yd : List YearItem) : List DecadeAggregate :=
  sortAscDec ((yd.foldl (fun m yi => decUpd yi m) []).map finalizeDec)

/-! ### C1 — the decade mean drops `Topic_1` -/

/-- C1 is violated: for the single year aggregate
`{year 1950, documentCount 1, Topic_1 = 1}` the decade mean of `Topic_1`
is `0`, where the claimed weighted mean is `(1 × 1) / 1 = 1`; with the
same weight moved to `Topic_2` the decade mean of `Topic_2` is the
claimed `1`.  The summation loop starts at `Topic_2` (an off-by-one: the
initialisation and averaging loops both run over `1..13`), so exactly the
`Topic_1` component of every decade mean is dropped. -/
theorem decade_mean_drops_topic1 :
    ((aggregateByDecade [⟨1950, 1, 1 :: List.replicate 12 0⟩]).map
        fun d => d.meanDist.getD 0 0) = [0]
    ∧ ((aggregateByDecade [⟨1950, 1, 0 :: 1 :: List.replicate 11 0⟩]).map
        fun d => d.meanDist.getD 1 0) = [1] := by
  constructor
  · norm_num [aggregateByDecade, decUpd, finalizeDec, decAddSums, zeroDist,
      mapWithIdx, sortAscDec, insertAscDec, dominantOf, scanStep, topicNums,
      decadeOf, List.range', List.replicate, List.getD]
  · norm_num [aggregateByDecade, decUpd, finalizeDec, decAddSums, zeroDist,
      mapWithIdx, sortAscDec, insertAscDec, dominantOf, scanStep, topicNums,
      decadeOf, List.range', List.replicate, List.getD]

/-! ### C7 — the dominant topic is the least argmax of the decade mean -/

theorem scan_go (f : ℕ → ℚ) :
    ∀ (n s k : ℕ), 1 ≤ k → k < s →
      (∀ j, 1 ≤ j → j < s → f j ≤ f k) →
      (∀ j, 1 ≤ j → j < s → f j = f k → k ≤ j) →
      ∃ m, (List.range' s n).foldl (scanStep f) (some (k, f k)) = some (m, f m)
        ∧ 1 ≤ m ∧ m < s + n
        ∧ (∀ j, 1 ≤ j → j < s + n → f j ≤ f m)
        ∧ (∀ j, 1 ≤ j → j < s + n → f j = f m → m ≤ j) := by
  intro n
  induction n with
  | zero =>
    intro s k hk1 hks hmax hleast
    exact ⟨k, by simp, hk1, by omega,
      fun j h1 h2 => hmax j h1 (by omega),
      fun j h1 h2 => hleast j h1 (by omega)⟩
  | succ n ih =>
    intro s k hk1 hks hmax hleast
    rw [List.range'_succ, List.foldl_cons]
    by_cases hlt : f k < f s
    · have hstep : scanStep f (some (k, f k)) s = some (s, f s) := by
        simp [scanStep, hlt]
      rw [hstep]
      obtain ⟨m, hm, hm1, hm2, hm3, hm4⟩ := ih (s + 1) s (by omega) (by omega)
        (fun j h1 h2 => by
          rcases Nat.lt_or_ge j s with hj | hj
          · exact le_of_lt (lt_of_le_of_lt (hmax j h1 hj) hlt)
          · have : j = s := by omega
            simp [this])
        (fun j h1 h2 heq => by
          rcases Nat.lt_or_ge j s with hj | hj
          · exact absurd heq (ne_of_lt (lt_of_le_of_lt (hmax j h1 hj) hlt))
          · omega)
      exact ⟨m, hm, hm1, by omega,
        fun j h1 h2 => hm3 j h1 (by omega),
        fun j h1 h2 => hm4 j h1 (by omega)⟩
    · have hstep : scanStep f (some (k, f k)) s = some (k, f k) := by
        simp [scanStep, hlt]
      rw [hstep]
      obtain ⟨m, hm, hm1, hm2, hm3, hm4⟩ := ih (s + 1) k hk1 (by omega)
        (fun j h1 h2 => by
          rcases Nat.lt_or_ge j s with hj | hj
          · exact hmax j h1 hj
          · have : j = s := by omega
            subst this
            exact le_of_not_lt hlt)
        (fun j h1 h2 heq => by
          rcases Nat.lt_or_ge j s with hj | hj
          · exact hleast j h1 hj heq
          · omega)
      exact ⟨m, hm, hm1, by omega,
        fun j h1 h2 => hm3 j h1 (by omega),
        fun j h1 h2 => hm4 j h1 (by omega)⟩

theorem dominantOf_spec (means : List ℚ) :
    ∃ m, dominantOf means = some m ∧ 1 ≤ m ∧ m ≤ 13
      ∧ (∀ j, 1 ≤ j → j ≤ 13 → means.getD (j - 1) 0 ≤ means.getD (m - 1) 0)
      ∧ (∀ j, 1 ≤ j → j ≤ 13 →
          means.getD (j - 1) 0 = means.getD (m - 1) 0 → m ≤ j) := by
  have h13 : List.range' 1 13 = 1 :: List.range' 2 12 := List.range'_succ 1 12 1
  obtain ⟨m, hm, hm1, hm2, hm3, hm4⟩ :=
    scan_go (fun j => means.getD (j - 1) 0) 12 2 1 (by omega) (by omega)
      (fun j h1 h2 => by
        have : j = 1 := by omega
        simp [this])
      (fun j h1 h2 _ => by omega)
  refine ⟨m, ?_, hm1, by omega,
    fun j h1 h2 => hm3 j h1 (by omega),
    fun j h1 h2 heq => hm4 j h1 (by omega) heq⟩
  rw [dominantOf, topicNums, h13, List.foldl_cons]
  have hfirst : scanStep (fun j => means.getD (j - 1) 0) none 1
      = some (1, means.getD 0 0) := by simp [scanStep]
  rw [hfirst]
  have : (some (1, means.getD 0 0))
      = some (1, (fun j : ℕ => means.getD (j - 1) 0) 1) := by norm_num
  rw [this, hm]
  rfl

theorem mem_insertAscDec {x y : DecadeAggregate} {l : List DecadeAggregate} :
    y ∈ insertAscDec x l ↔ y = x ∨ y ∈ l := by
  induction l with
  | nil => simp [insertAscDec]
  | cons b bs ih =>
    by_cases h : x.decade ≤ b.decade
    · simp [insertAscDec, h]
    · simp [insertAscDec, h, ih]
      tauto

theorem mem_sortAscDec {y : DecadeAggregate} {l : List DecadeAggregate} :
    y ∈ sortAscDec l ↔ y ∈ l := by
  induction l with
  | nil => simp [sortAscDec]
  | cons b bs ih => simp [sortAscDec, mem_insertAscDec, ih]

/-- C7: every decade record produced by the decade aggregator carries as
`dominantTopic` the topic whose (produced) decade mean value is maximal,
with ties resolved to the lowest topic id: the scan's strict `>` keeps
the first maximiser of the ascending `1..13` scan. -/
theorem decade_dominant_argmax (yd : List YearItem) (d : DecadeAggregate)
    (hd : d ∈ aggregateByDecade yd) :
    ∃ m, d.dominantTopic = some m ∧ 1 ≤ m ∧ m ≤ 13
      ∧ (∀ j, 1 ≤ j → j ≤ 13 →
          d.meanDist.getD (j - 1) 0 ≤ d.meanDist.getD (m - 1) 0)
      ∧ (∀ j, 1 ≤ j → j ≤ 13 →
          d.meanDist.getD (j - 1) 0 = d.meanDist.getD (m - 1) 0 → m ≤ j) := by
  rw [aggregateByDecade, mem_sortAscDec] at hd
  obtain ⟨a, -, rfl⟩ := List.mem_map.mp hd
  exact dominantOf_spec _

/-- Instantiation of `decade_dominant_argmax` on the single year row
`{1950, 1, Topic_2 = 1}`: the decade record is
`{1950, 1, [0,1,0,...,0], dominant Topic_2}` and, e.g., the `Topic_1`
mean is bounded by the `Topic_2` mean. -/
theorem decade_dominant_argmax_witness :
    (⟨1950, 1, [0, 1, 0, 0, 0, 0, 0, 0, 0, 0, 0, 0, 0], some 2⟩ : DecadeAggregate)
      ∈ aggregateByDecade [⟨1950, 1, 0 :: 1 :: List.replicate 11 0⟩]
    ∧ ∃ m, (some 2 : Option ℕ) = some m ∧ 1 ≤ m ∧ m ≤ 13
      ∧ (∀ j, 1 ≤ j → j ≤ 13 →
          ([0, 1, 0, 0, 0, 0, 0, 0, 0, 0, 0, 0, 0] : List ℚ).getD (j - 1) 0
            ≤ ([0, 1, 0, 0, 0, 0, 0, 0, 0, 0, 0, 0, 0] : List ℚ).getD (m - 1) 0)
      ∧ (∀ j, 1 ≤ j → j ≤ 13 →
          ([0, 1, 0, 0, 0, 0, 0, 0, 0, 0, 0, 0, 0] : List ℚ).getD (j - 1) 0
            = ([0, 1, 0, 0, 0, 0, 0, 0, 0, 0, 0, 0, 0] : List ℚ).getD (m - 1) 0 → m ≤ j) := by
  have hmem : (⟨1950, 1, [0, 1, 0, 0, 0, 0, 0, 0, 0, 0, 0, 0, 0], some 2⟩ : DecadeAggregate)
      ∈ aggregateByDecade [⟨1950, 1, 0 :: 1 :: List.replicate 11 0⟩] := by
    norm_num [aggregateByDecade, decUpd, finalizeDec, decAddSums, zeroDist,
      mapWithIdx, sortAscDec, insertAscDec, dominantOf, scanStep, topicNums,
      decadeOf, List.range', List.replicate, List.getD]
    decide
  exact ⟨hmem, decade_dominant_argmax _ _ hmem⟩

/-! ### Keyword merger — `enhanceTopicKeywords` -/

/-- One element of the `topicKeywords` array built by
`prepareTopicKeywords`: `{id, name, keywords}`. -/
structure TopicEntry where
  id : ℕ
  name : String
  keywords : List String
deriving DecidableEq

/-- Default used for out-of-range reads; its `id` is `0`, which no real
topic entry carries (`prepareTopicKeywords` ids are `1..13`). -/
def dfltEntry : TopicEntry := ⟨0, "", []⟩

/-- `enhancedKeywords.find(t => t.id === topicId)` followed by
`if (!topic.keywords.includes(word)) topic.keywords.push(word)`: the
first entry with the given id gets `w` appended unless already present;
every other entry is untouched; no matching entry → no change. -/
def pushWord (tid : ℕ) (w : String) : List TopicEntry → List TopicEntry
  | [] => []
  | t :: ts =>
    if t.id = tid then
      (if w ∈ t.keywords then t :: ts
        else ⟨t.id, t.name, t.keywords ++ [w]⟩ :: ts)
    else t :: pushWord tid w ts

/-- One `expandedWordlist.forEach` step:
`if (!topicId || !word) return;` — JS falsiness skips id `0` and the
empty word. -/
def enhStep (s : List TopicEntry) (item : ℕ × String) : List TopicEntry :=
  if item.1 = 0 ∨ item.2 = "" then s else pushWord item.1 item.2 s

/-- `enhanceTopicKeywords(topicKeywords, expandedWordlist)`.

The source first takes a *shallow* copy `[...topicKeywords]`: the array
is new, but its elements are the very entry objects of the input, and
`topic.keywords.push(word)` mutates those shared objects.  The list
computed here is therefore simultaneously (a) the function's return
value and (b) the post-call state of the caller's `topicKeywords`
entries. -/
def enhanceTopicKeywords (base : List TopicEntry) (wl : List (ℕ × String)) :
    List TopicEntry :=
  wl.foldl enhStep base

/-- The post-call state of the caller's base entry objects: by the
aliasing described at `enhanceTopicKeywords`, entry `k` of the input
refers, after the call, to entry `k` of the merged result. -/
def baseAfterEnhance (base : List TopicEntry) (wl : List (ℕ × String)) :
    List TopicEntry :=
  enhanceTopicKeywords base wl

/-- Position `k` holds the first entry of `s` carrying its own id. -/
def isFirstId (s : List TopicEntry) (k : ℕ) : Prop :=
  (s.getD k dfltEntry).id ∉ (s.take k).map TopicEntry.id

instance (s : List TopicEntry) (k : ℕ) : Decidable (isFirstId s k) := by
  unfold isFirstId; infer_instance

/-- Position `k` is the first position of `s` holding id `tid` (and is in
range). -/
def firstIdx (s : List TopicEntry) (tid k : ℕ) : Prop :=
  (s.getD k dfltEntry).id = tid ∧ k < s.length
    ∧ tid ∉ (s.take k).map TopicEntry.id

/-- The expansion words a wordlist contributes to a topic entry, written
from the specification's words: walk the `(topicId, word)` rows in order
and collect each word addressed to `tid` (with JS-falsy rows skipped)
that is not yet present, accumulating into the keyword list as we go —
i.e. first-seen de-duplicated order. -/
def specNewWords (tid : ℕ) (kws : List String) : List (ℕ × String) → List String
  | [] => []
  | (t, w) :: rest =>
    if t = tid ∧ t ≠ 0 ∧ w ≠ "" ∧ w ∉ kws then
      w :: specNewWords tid (kws ++ [w]) rest
    else specNewWords tid kws rest

/-- The words appended to base entry `k` overall: only the first entry
with a given id receives words (later duplicates of an id get none). -/
def expansionFor (base : List TopicEntry) (wl : List (ℕ × String)) (k : ℕ) :
    List String :=
  if isFirstId base k then
    specNewWords (base.getD k dfltEntry).id (base.getD k dfltEntry).keywords wl
  else []

theorem getD_map_id :
    ∀ (l : List TopicEntry) (k : ℕ),
      (l.map TopicEntry.id).getD k 0 = (l.getD k dfltEntry).id := by
  intro l
  induction l with
  | nil => intro k; simp [dfltEntry]
  | cons t ts ih =>
    intro k
    cases k with
    | zero => simp
    | succ j => simpa using ih j

theorem getD_map_name :
    ∀ (l : List TopicEntry) (k : ℕ),
      (l.map TopicEntry.name).getD k "" = (l.getD k dfltEntry).name := by
  intro l
  induction l with
  | nil => intro k; simp [dfltEntry]
  | cons t ts ih =>
    intro k
    cases k with
    | zero => simp
    | succ j => simpa using ih j

theorem pushWord_map_id (tid : ℕ) (w : String) :
    ∀ s : List TopicEntry,
      (pushWord tid w s).map TopicEntry.id = s.map TopicEntry.id := by
  intro s
  induction s with
  | nil => simp [pushWord]
  | cons t ts ih =>
    by_cases hid : t.id = tid
    · by_cases hw : w ∈ t.keywords
      · simp [pushWord, hid, hw]
      · simp [pushWord, hid, hw]
    · simp [pushWord, hid, ih]

theorem pushWord_map_name (tid : ℕ) (w : String) :
    ∀ s : List TopicEntry,
      (pushWord tid w s).map TopicEntry.name = s.map TopicEntry.name := by
  intro s
  induction s with
  | nil => simp [pushWord]
  | cons t ts ih =>
    by_cases hid : t.id = tid
    · by_cases hw : w ∈ t.keywords
      · simp [pushWord, hid, hw]
      · simp [pushWord, hid, hw]
    · simp [pushWord, hid, ih]

theorem pushWord_length (tid : ℕ) (w : String) (s : List TopicEntry) :
    (pushWord tid w s).length = s.length := by
  have h := congrArg List.length (pushWord_map_id tid w s)
  simpa using h

theorem pushWord_getD_id (tid : ℕ) (w : String) (s : List TopicEntry) (k : ℕ) :
    ((pushWord tid w s).getD k dfltEntry).id = (s.getD k dfltEntry).id := by
  rw [← getD_map_id, ← getD_map_id, pushWord_map_id]

theorem pushWord_take_map_id (tid : ℕ) (w : String) (s : List TopicEntry) (k : ℕ) :
    ((pushWord tid w s).take k).map TopicEntry.id
      = (s.take k).map TopicEntry.id := by
  rw [List.map_take, List.map_take, pushWord_map_id]

theorem isFirstId_pushWord (tid : ℕ) (w : String) (s : List TopicEntry) (k : ℕ) :
    isFirstId (pushWord tid w s) k ↔ isFirstId s k := by
  unfold isFirstId
  rw [pushWord_getD_id, pushWord_take_map_id]

theorem pushWord_getD (tid : ℕ) (w : String) :
    ∀ (s : List TopicEntry) (k : ℕ),
      (¬ firstIdx s tid k →
        (pushWord tid w s).getD k dfltEntry = s.getD k dfltEntry)
      ∧ (firstIdx s tid k → w ∈ (s.getD k dfltEntry).keywords →
        (pushWord tid w s).getD k dfltEntry = s.getD k dfltEntry)
      ∧ (firstIdx s tid k → w ∉ (s.getD k dfltEntry).keywords →
        (pushWord tid w s).getD k dfltEntry
          = ⟨tid, (s.getD k dfltEntry).name,
              (s.getD k dfltEntry).keywords ++ [w]⟩) := by
  intro s
  induction s with
  | nil =>
    intro k
    refine ⟨fun _ => by simp [pushWord], fun hfi _ => ?_, fun hfi _ => ?_⟩
    · exact absurd hfi.2.1 (by simp)
    · exact absurd hfi.2.1 (by simp)
  | cons t ts ih =>
    intro k
    by_cases hid : t.id = tid
    · cases k with
      | zero =>
        have hfi : firstIdx (t :: ts) tid 0 := ⟨by simpa using hid, by simp, by simp⟩
        refine ⟨fun hn => absurd hfi hn, fun _ hw => ?_, fun _ hw => ?_⟩
        · simp only [List.getD_cons_zero] at hw
          simp [pushWord, hid, hw]
        · simp only [List.getD_cons_zero] at hw
          simp [pushWord, hid, hw]
      | succ j =>
        have hnot : ¬ firstIdx (t :: ts) tid (j + 1) := by
          rintro ⟨-, -, hmem⟩
          exact hmem (by simp [hid])
        refine ⟨fun _ => ?_, fun hfi _ => absurd hfi hnot,
          fun hfi _ => absurd hfi hnot⟩
        by_cases hw : w ∈ t.keywords
        · simp [pushWord, hid, hw]
        · simp [pushWord, hid, hw]
    · cases k with
      | zero =>
        have hnot : ¬ firstIdx (t :: ts) tid 0 := by
          rintro ⟨h0, -, -⟩
          exact hid (by simpa using h0)
        exact ⟨fun _ => by simp [pushWord, hid], fun hfi _ => absurd hfi hnot,
          fun hfi _ => absurd hfi hnot⟩
      | succ j =>
        have hiff : firstIdx (t :: ts) tid (j + 1) ↔ firstIdx ts tid j := by
          unfold firstIdx
          simp [hid, Nat.succ_lt_succ_iff]
          tauto
        refine ⟨fun hn => ?_, fun hfi hw => ?_, fun hfi hw => ?_⟩
        · have hn' : ¬ firstIdx ts tid j := fun h => hn (hiff.mpr h)
          simpa [pushWord, hid] using (ih j).1 hn'
        · have hfi' : firstIdx ts tid j := hiff.mp hfi
          have hw' : w ∈ (ts.getD j dfltEntry).keywords := by simpa using hw
          simpa [pushWord, hid] using (ih j).2.1 hfi' hw'
        · have hfi' : firstIdx ts tid j := hiff.mp hfi
          have hw' : w ∉ (ts.getD j dfltEntry).keywords := by simpa using hw
          simpa [pushWord, hid] using (ih j).2.2 hfi' hw'

theorem expansionFor_cons_skip (s : List TopicEntry) (t : ℕ) (w : String)
    (rest : List (ℕ × String)) (k : ℕ)
    (hg : ¬ (t = (s.getD k dfltEntry).id ∧ t ≠ 0 ∧ w ≠ ""
      ∧ w ∉ (s.getD k dfltEntry).keywords)) :
    expansionFor s ((t, w) :: rest) k = expansionFor s rest k := by
  unfold expansionFor
  by_cases hf : isFirstId s k
  · rw [if_pos hf, if_pos hf]
    simp only [specNewWords]
    rw [if_neg hg]
  · rw [if_neg hf, if_neg hf]

theorem expansionFor_congr (s' s : List TopicEntry) (rest : List (ℕ × String))
    (k : ℕ) (h1 : s'.getD k dfltEntry = s.getD k dfltEntry)
    (h2 : isFirstId s' k ↔ isFirstId s k) :
    expansionFor s' rest k = expansionFor s rest k := by
  unfold expansionFor
  by_cases hf : isFirstId s k
  · rw [if_pos hf, if_pos (h2.mpr hf), h1]
  · rw [if_neg hf, if_neg (fun h => hf (h2.mp h))]

theorem expansionFor_cons_push (s : List TopicEntry) (t : ℕ) (w : String)
    (rest : List (ℕ × String)) (k : ℕ)
    (hf : isFirstId s k) (hid : t = (s.getD k dfltEntry).id) (ht0 : t ≠ 0)
    (hw0 : w ≠ "") (hw : w ∉ (s.getD k dfltEntry).keywords) :
    expansionFor s ((t, w) :: rest) k
      = w :: specNewWords (s.getD k dfltEntry).id
          ((s.getD k dfltEntry).keywords ++ [w]) rest := by
  unfold expansionFor
  rw [if_pos hf]
  simp only [specNewWords]
  rw [if_pos ⟨hid, ht0, hw0, hw⟩]

theorem enhance_getD (wl : List (ℕ × String)) :
    ∀ (s : List TopicEntry) (k : ℕ),
      (enhanceTopicKeywords s wl).getD k dfltEntry
        = ⟨(s.getD k dfltEntry).id, (s.getD k dfltEntry).name,
            (s.getD k dfltEntry).keywords ++ expansionFor s wl k⟩ := by
  induction wl with
  | nil =>
    intro s k
    simp [enhanceTopicKeywords, expansionFor, specNewWords]
  | cons item rest ih =>
    intro s k
    obtain ⟨t, w⟩ := item
    have hfold : enhanceTopicKeywords s ((t, w) :: rest)
        = enhanceTopicKeywords (enhStep s (t, w)) rest := rfl
    rw [hfold, ih]
    by_cases hskip : t = 0 ∨ w = ""
    · have hs : enhStep s (t, w) = s := if_pos hskip
      rw [hs, expansionFor_cons_skip s t w rest k (by
        rintro ⟨-, ht0, hw0, -⟩
        rcases hskip with h | h
        exacts [ht0 h, hw0 h])]
    · have hs : enhStep s (t, w) = pushWord t w s := if_neg hskip
      push_neg at hskip
      obtain ⟨ht0, hw0⟩ := hskip
      rw [hs]
      by_cases hf : isFirstId s k
      · by_cases hid : (s.getD k dfltEntry).id = t
        · have hklen : k < s.length := by
            by_contra hk
            have hd : s.getD k dfltEntry = dfltEntry := by
              simp [List.getD_eq_getElem?_getD,
                List.getElem?_eq_none (Nat.le_of_not_lt hk)]
            rw [hd] at hid
            exact ht0 hid.symm
          have hfi : firstIdx s t k := ⟨hid, hklen, by rw [← hid]; exact hf⟩
          by_cases hw : w ∈ (s.getD k dfltEntry).keywords
          · have hpw := (pushWord_getD t w s k).2.1 hfi hw
            rw [hpw,
              expansionFor_congr (pushWord t w s) s rest k hpw
                (isFirstId_pushWord t w s k),
              expansionFor_cons_skip s t w rest k (by
                rintro ⟨-, -, -, hmem⟩
                exact hmem hw)]
          · have hpw := (pushWord_getD t w s k).2.2 hfi hw
            have hxf : isFirstId (pushWord t w s) k :=
              (isFirstId_pushWord t w s k).mpr hf
            have hexp : expansionFor (pushWord t w s) rest k
                = specNewWords ((s.getD k dfltEntry).id)
                    ((s.getD k dfltEntry).keywords ++ [w]) rest := by
              unfold expansionFor
              rw [if_pos hxf, hpw, hid]
            rw [hpw, hexp,
              expansionFor_cons_push s t w rest k hf hid.symm ht0 hw0 hw,
              hid, List.append_assoc]
            rfl
        · have hnfi : ¬ firstIdx s t k := fun hfi => hid hfi.1
          have hpw := (pushWord_getD t w s k).1 hnfi
          rw [hpw,
            expansionFor_congr (pushWord t w s) s rest k hpw
              (isFirstId_pushWord t w s k),
            expansionFor_cons_skip s t w rest k (by
              rintro ⟨heq, -, -, -⟩
              exact hid heq.symm)]
      · have hnfi : ¬ firstIdx s t k := by
          intro hfi
          apply hf
          unfold isFirstId
          rw [hfi.1]
          exact hfi.2.2
        have hpw := (pushWord_getD t w s k).1 hnfi
        have hxf : ¬ isFirstId (pushWord t w s) k := by
          rw [isFirstId_pushWord]; exact hf
        have h1 : expansionFor (pushWord t w s) rest k = [] := by
          unfold expansionFor; rw [if_neg hxf]
        have h2 : expansionFor s ((t, w) :: rest) k = [] := by
          unfold expansionFor; rw [if_neg hf]
        rw [hpw, h1, h2]

theorem specNewWords_nodup (tid : ℕ) :
    ∀ (wl : List (ℕ × String)) (kws : List String), kws.Nodup →
      (kws ++ specNewWords tid kws wl).Nodup := by
  intro wl
  induction wl with
  | nil => intro kws h; simpa [specNewWords] using h
  | cons item rest ih =>
    intro kws h
    obtain ⟨t, w⟩ := item
    by_cases hg : t = tid ∧ t ≠ 0 ∧ w ≠ "" ∧ w ∉ kws
    · simp only [specNewWords]
      rw [if_pos hg]
      have hrw : kws ++ w :: specNewWords tid (kws ++ [w]) rest
          = (kws ++ [w]) ++ specNewWords tid (kws ++ [w]) rest := by simp
      rw [hrw]
      refine ih (kws ++ [w]) ?_
      simp [List.nodup_append, h, hg.2.2.2]
    · simp only [specNewWords]
      rw [if_neg hg]
      exact ih kws h

theorem enhance_length (wl : List (ℕ × String)) :
    ∀ s : List TopicEntry, (enhanceTopicKeywords s wl).length = s.length := by
  induction wl with
  | nil => intro s; rfl
  | cons item rest ih =>
    intro s
    obtain ⟨t, w⟩ := item
    have hfold : enhanceTopicKeywords s ((t, w) :: rest)
        = enhanceTopicKeywords (enhStep s (t, w)) rest := rfl
    rw [hfold, ih]
    by_cases hskip : t = 0 ∨ w = ""
    · rw [enhStep, if_pos hskip]
    · rw [enhStep, if_neg hskip]
      exact pushWord_length t w s

/-! ### C2 — the merger is not pure: it mutates the base entries -/

/-- On the concrete base `[{id 1, "n", ["a"]}]` and wordlist
`[(1, "b")]`, the caller's base entry objects after the call differ from
the entries before it (the entry's keyword list gained `"b"` in place):
the merger is not side-effect-free on its first argument. -/
theorem enhance_mutates_base_counterexample :
    baseAfterEnhance [⟨1, "n", ["a"]⟩] [(1, "b")] ≠ [⟨1, "n", ["a"]⟩] := by
  decide

/-- C2 (amended): the merger mutates the base entries in place rather
than leaving them unchanged, but the mutation is limited: the array
length is preserved, every entry keeps its position, id and name, and
each entry's keyword list is only ever *extended* (the pre-call list is
a prefix of the post-call list). -/
theorem enhance_frame (base : List TopicEntry) (wl : List (ℕ × String)) (k : ℕ) :
    (enhanceTopicKeywords base wl).length = base.length
    ∧ ((enhanceTopicKeywords base wl).getD k dfltEntry).id
        = (base.getD k dfltEntry).id
    ∧ ((enhanceTopicKeywords base wl).getD k dfltEntry).name
        = (base.getD k dfltEntry).name
    ∧ ∃ ws, ((enhanceTopicKeywords base wl).getD k dfltEntry).keywords
        = (base.getD k dfltEntry).keywords ++ ws := by
  refine ⟨enhance_length wl base, ?_, ?_, ⟨expansionFor base wl k, ?_⟩⟩
  · rw [enhance_getD]
  · rw [enhance_getD]
  · rw [enhance_getD]

/-! ### C3 — merged keyword lists: dedup and order -/

/-- A base entry whose keyword list already contains a duplicate
(`["a", "a"]`) passes through the merger unchanged (empty wordlist), so
the returned keyword list has a duplicate: the unqualified "no duplicate
words" claim fails — the merger de-duplicates only what *it* appends. -/
theorem enhance_nodup_counterexample :
    ¬ (((enhanceTopicKeywords [⟨1, "n", ["a", "a"]⟩] []).getD 0
        dfltEntry).keywords.Nodup) := by
  decide

/-- C3 (amended): provided each base keyword list is duplicate-free, each
keyword list produced by the merger is duplicate-free and equals the
original base list followed by the expansion words in first-seen order of
the expanded rows (`expansionFor`: rows with JS-falsy topic id `0` or
empty word are skipped, only the first base entry with a given id
receives words, and a word already present — in the base list or
appended earlier — is not appended again). -/
theorem enhance_keywords_spec (base : List TopicEntry) (wl : List (ℕ × String))
    (k : ℕ) (h : ∀ t ∈ base, t.keywords.Nodup) :
    ((enhanceTopicKeywords base wl).getD k dfltEntry).keywords
        = (base.getD k dfltEntry).keywords ++ expansionFor base wl k
    ∧ ((enhanceTopicKeywords base wl).getD k dfltEntry).keywords.Nodup := by
  have hmain := enhance_getD wl base k
  have hkws : (base.getD k dfltEntry).keywords.Nodup := by
    by_cases hk : k < base.length
    · refine h _ ?_
      rw [List.getD_eq_getElem?_getD, List.getElem?_eq_getElem hk]
      exact List.getElem_mem hk
    · have : base.getD k dfltEntry = dfltEntry := by
        simp [List.getD_eq_getElem?_getD,
          List.getElem?_eq_none (Nat.le_of_not_lt hk)]
      rw [this]
      simp [dfltEntry]
  constructor
  · rw [hmain]
  · rw [hmain]
    unfold expansionFor
    by_cases hf : isFirstId base k
    · rw [if_pos hf]
      exact specNewWords_nodup _ wl _ hkws
    · rw [if_neg hf]
      simpa using hkws

/-- Instantiation of `enhance_keywords_spec` on a base with one
duplicate-free entry and a wordlist exercising every skip rule. -/
theorem enhance_keywords_spec_witness :
    ((enhanceTopicKeywords [⟨1, "poetry", ["a"]⟩]
        [(1, "b"), (1, "a"), (2, "c"), (0, "x"), (1, ""), (1, "b")]).getD 0
          dfltEntry).keywords
      = (([⟨1, "poetry", ["a"]⟩] : List TopicEntry).getD 0 dfltEntry).keywords
          ++ expansionFor [⟨1, "poetry", ["a"]⟩]
              [(1, "b"), (1, "a"), (2, "c"), (0, "x"), (1, ""), (1, "b")] 0
    ∧ ((enhanceTopicKeywords [⟨1, "poetry", ["a"]⟩]
        [(1, "b"), (1, "a"), (2, "c"), (0, "x"), (1, ""), (1, "b")]).getD 0
          dfltEntry).keywords.Nodup :=
  enhance_keywords_spec [⟨1, "poetry", ["a"]⟩]
    [(1, "b"), (1, "a"), (2, "c"), (0, "x"), (1, ""), (1, "b")] 0 (by decide)

/-! ### Author aggregator — `getTopAuthors` -/

/-- A computable model of `String.prototype.trim` — strip leading and
trailing whitespace.  (Lean's own `String.trim` is defined by
byte-position recursion that the kernel cannot unfold, so the equivalent
character-list form is used.) -/
def trimStr (s : String) : String :=
  ⟨((s.data.dropWhile Char.isWhitespace).reverse.dropWhile
      Char.isWhitespace).reverse⟩

/-- JS truthiness of
`if (!doc.Author || !doc.Author.trim()) return;`: the document is kept
only when the author is present and not blank after trimming. -/
def validAuthor (d : Doc) : Bool :=
  match d.author with
  | none => false
  | some s => decide (trimStr s ≠ "")

/-- Per-author accumulator of `authorMap`:
`{name, count, books (insertion-ordered set), topicSums}`. -/
structure AuthorAcc where
  name : String
  count : ℕ
  books : List String
  sums : List ℚ
deriving DecidableEq

/-- `if (doc["Book Title"]) authorData.books.add(doc["Book Title"])`:
truthy (present, non-empty) titles only; a JS `Set` keeps first-insertion
order and ignores repeats. -/
def bookAdd (books : List String) (d : Doc) : List String :=
  match d.title with
  | none => books
  | some t =>
    if t = "" then books else if t ∈ books then books else books ++ [t]

/-- Update of `authorMap.get(authorName)`; creation inserts at the end,
as a JS `Map` preserves insertion order. -/
def authUpd (flag : Bool) (d : Doc) (nm : String) :
    List AuthorAcc → List AuthorAcc
  | [] => [⟨nm, 1, bookAdd [] d, addDist flag d zeroDist⟩]
  | a :: rest =>
    if a.name = nm then
      ⟨a.name, a.count + 1, bookAdd a.books d, addDist flag d a.sums⟩ :: rest
    else a :: authUpd flag d nm rest

/-- One `documentTopics.forEach` step of `getTopAuthors`. -/
def authorStep (flag : Bool) (m : List AuthorAcc) (d : Doc) : List AuthorAcc :=
  if validAuthor d then authUpd flag d (trimStr (d.author.getD "")) m else m

/-- The full accumulation pass over the documents. -/
def buildAuthors (flag : Bool) (docs : List Doc) : List AuthorAcc :=
  docs.foldl (authorStep flag) []

/-- The output record `{name, count, bookCount, topicDistribution}`; the
debugging `totalDistribution` field is dropped, nothing consumes it. -/
structure AuthorOut where
  name : String
  count : ℕ
  bookCount : ℕ
  topicDistribution : List ℚ
deriving DecidableEq

/-- `Array.from(authorMap.values()).map(...)`: per topic slot,
`author.count > 0 ? topicSums[k] / count : 0`. -/
def toOut (a : AuthorAcc) : AuthorOut :=
  ⟨a.name, a.count, a.books.length,
    a.sums.map fun q => if 0 < a.count then q / (a.count : ℚ) else 0⟩

/-- The author aggregates in `Map` insertion (encounter) order, with an
explicit normalization flag. -/
def authorListF (flag : Bool) (docs : List Doc) : List AuthorOut :=
  (buildAuthors flag docs).map toOut

/-- Stable insertion into a descending-by-count list: the element goes
after every element of strictly greater count and before the first of
count ≤ its own.  `authors.sort((a, b) => b.count - a.count)` is a stable
sort (ES2019); the stable descending order is unique and this insertion
sort realises it. -/
def insertByCount (x : AuthorOut) : List AuthorOut → List AuthorOut
  | [] => [x]
  | b :: bs => if b.count ≤ x.count then x :: b :: bs else b :: insertByCount x bs

def sortByCount : List AuthorOut → List AuthorOut
  | [] => []
  | x :: xs => insertByCount x (sortByCount xs)

/-- `getTopAuthors` with the flag explicit: sort descending by count and
`slice(0, topN)`. -/
def topAuthorsF (flag : Bool) (docs : List Doc) (n : ℕ) : List AuthorOut :=
  (sortByCount (authorListF flag docs)).take n

/-- `getTopAuthors(documentTopics, topN)`. -/
def getTopAuthors (docs : List Doc) (n : ℕ) : List AuthorOut :=
  topAuthorsF (needsNormalization docs) docs n

theorem mem_insertByCount {x y : AuthorOut} {l : List AuthorOut} :
    y ∈ insertByCount x l ↔ y = x ∨ y ∈ l := by
  induction l with
  | nil => simp [insertByCount]
  | cons b bs ih =>
    by_cases h : b.count ≤ x.count
    · simp [insertByCount, h]
    · simp [insertByCount, h, ih]
      tauto

theorem insertByCount_pairwise {x : AuthorOut} {l : List AuthorOut}
    (hl : l.Pairwise fun a b => b.count ≤ a.count) :
    (insertByCount x l).Pairwise fun a b => b.count ≤ a.count := by
  induction l with
  | nil => simp [insertByCount]
  | cons b bs ih =>
    rcases List.pairwise_cons.mp hl with ⟨hb, hbs⟩
    by_cases h : b.count ≤ x.count
    · rw [insertByCount, if_pos h]
      refine List.pairwise_cons.mpr ⟨?_, hl⟩
      intro y hy
      rcases List.mem_cons.mp hy with rfl | hy
      · exact h
      · exact le_trans (hb y hy) h
    · rw [insertByCount, if_neg h]
      refine List.pairwise_cons.mpr ⟨?_, ih hbs⟩
      intro y hy
      rcases mem_insertByCount.mp hy with rfl | hy
      · exact le_of_lt (lt_of_not_le h)
      · exact hb y hy

theorem sortByCount_pairwise (l : List AuthorOut) :
    (sortByCount l).Pairwise fun a b => b.count ≤ a.count := by
  induction l with
  | nil => simp [sortByCount]
  | cons x xs ih => exact insertByCount_pairwise ih

theorem insertByCount_perm (x : AuthorOut) (l : List AuthorOut) :
    List.Perm (insertByCount x l) (x :: l) := by
  induction l with
  | nil => rfl
  | cons b bs ih =>
    by_cases h : b.count ≤ x.count
    · rw [insertByCount, if_pos h]
    · rw [insertByCount, if_neg h]
      exact (ih.cons b).trans (List.Perm.swap x b bs)

theorem sortByCount_perm (l : List AuthorOut) : List.Perm (sortByCount l) l := by
  induction l with
  | nil => rfl
  | cons x xs ih => exact (insertByCount_perm x (sortByCount xs)).trans (ih.cons x)

theorem insertByCount_filter_eq (x : AuthorOut) (l : List AuthorOut) (c : ℕ)
    (hc : x.count = c) :
    (insertByCount x l).filter (fun a => a.count == c)
      = x :: l.filter fun a => a.count == c := by
  induction l with
  | nil => simp [insertByCount, List.filter, hc]
  | cons b bs ih =>
    by_cases h : b.count ≤ x.count
    · rw [insertByCount, if_pos h, List.filter_cons, if_pos (by simp [hc])]
    · have hbne : (b.count == c) = false := by
        simp only [beq_eq_false_iff_ne]
        intro hbc
        exact h (le_of_eq (hbc.trans hc.symm))
      rw [insertByCount, if_neg h, List.filter_cons, hbne, List.filter_cons, hbne]
      simpa using ih

theorem insertByCount_filter_ne (x : AuthorOut) (l : List AuthorOut) (c : ℕ)
    (hc : x.count ≠ c) :
    (insertByCount x l).filter (fun a => a.count == c)
      = l.filter fun a => a.count == c := by
  induction l with
  | nil => simp [insertByCount, List.filter_cons, hc]
  | cons b bs ih =>
    by_cases h : b.count ≤ x.count
    · rw [insertByCount, if_pos h, List.filter_cons, if_neg (by simp [hc])]
    · rw [insertByCount, if_neg h, List.filter_cons, List.filter_cons]
      by_cases hb : (b.count == c) = true
      · rw [if_pos hb, if_pos hb, ih]
      · rw [if_neg hb, if_neg hb, ih]

theorem sortByCount_filter (l : List AuthorOut) (c : ℕ) :
    (sortByCount l).filter (fun a => a.count == c)
      = l.filter fun a => a.count == c := by
  induction l with
  | nil => rfl
  | cons x xs ih =>
    by_cases hc : x.count = c
    · rw [sortByCount, insertByCount_filter_eq x _ c hc, ih, List.filter_cons,
        if_pos (by simp [hc])]
    · rw [sortByCount, insertByCount_filter_ne x _ c hc, ih, List.filter_cons,
        if_neg (by simp [hc])]

theorem authors_skip_invalid (flag : Bool) (docs : List Doc) :
    ∀ m : List AuthorAcc,
      (docs.filter validAuthor).foldl (authorStep flag) m
        = docs.foldl (authorStep flag) m := by
  induction docs with
  | nil => intro m; simp
  | cons d tl ih =>
    intro m
    by_cases hv : validAuthor d
    · rw [List.filter_cons_of_pos hv, List.foldl_cons, List.foldl_cons, ih]
    · rw [List.filter_cons_of_neg hv, List.foldl_cons, ih, authorStep, if_neg hv]

/-- C8: the author aggregator returns at most `n` aggregates, sorted by
document count descending; every returned count dominates every excluded
author's count; ties keep original encounter order (the result filtered
to any fixed count is a prefix of the encounter-order aggregates with
that count — the stable-sort property); and documents with an absent or
blank-after-trim author contribute nothing to the accumulation. -/
theorem getTopAuthors_spec (docs : List Doc) (n : ℕ) :
    (getTopAuthors docs n).length ≤ n
    ∧ (getTopAuthors docs n).Pairwise (fun a b => b.count ≤ a.count)
    ∧ (∀ a ∈ getTopAuthors docs n,
        ∀ b ∈ authorListF (needsNormalization docs) docs,
          b ∉ getTopAuthors docs n → b.count ≤ a.count)
    ∧ (∀ c : ℕ, ∃ suffix,
        ((getTopAuthors docs n).filter fun a => a.count == c) ++ suffix
          = (authorListF (needsNormalization docs) docs).filter
              fun a => a.count == c)
    ∧ (∀ flag, topAuthorsF flag (docs.filter validAuthor) n
        = topAuthorsF flag docs n) := by
  refine ⟨?_, ?_, ?_, ?_, ?_⟩
  · exact List.length_take_le n _
  · exact (sortByCount_pairwise _).sublist (List.take_sublist n _)
  · intro a ha b hb hnb
    have hbL : b ∈ sortByCount (authorListF (needsNormalization docs) docs) :=
      (sortByCount_perm _).mem_iff.mpr hb
    have hsplit := List.take_append_drop n
      (sortByCount (authorListF (needsNormalization docs) docs))
    have hbdrop : b ∈ (sortByCount
        (authorListF (needsNormalization docs) docs)).drop n := by
      rcases List.mem_append.mp (by rw [hsplit]; exact hbL) with h | h
      · exact absurd h hnb
      · exact h
    have hpw := sortByCount_pairwise
      (authorListF (needsNormalization docs) docs)
    rw [← hsplit] at hpw
    exact (List.pairwise_append.mp hpw).2.2 a ha b hbdrop
  · intro c
    refine ⟨((sortByCount (authorListF (needsNormalization docs) docs)).drop
      n).filter fun a => a.count == c, ?_⟩
    unfold getTopAuthors topAuthorsF
    rw [← List.filter_append, List.take_append_drop, sortByCount_filter]
  · intro flag
    unfold topAuthorsF authorListF buildAuthors
    rw [authors_skip_invalid]

/-- Documents used to instantiate `getTopAuthors_spec`: two by author
`"X"`, one by `"Y"`, no weights, no titles. -/
def c8DocX : Doc := ⟨some "X", none, none, fun _ => none⟩

def c8DocY : Doc := ⟨some "Y", none, none, fun _ => none⟩

/-- Instantiation of `getTopAuthors_spec` at `[X, X, Y]`, `n = 1`: the
returned author is `X` with count `2`; the excluded `Y` has count
`1 ≤ 2`. -/
theorem getTopAuthors_spec_witness :
    (⟨"X", 2, 0, List.replicate 13 0⟩ : AuthorOut)
        ∈ getTopAuthors [c8DocX, c8DocX, c8DocY] 1
    ∧ (⟨"Y", 1, 0, List.replicate 13 0⟩ : AuthorOut)
        ∈ authorListF (needsNormalization [c8DocX, c8DocX, c8DocY])
            [c8DocX, c8DocX, c8DocY]
    ∧ (⟨"Y", 1, 0, List.replicate 13 0⟩ : AuthorOut)
        ∉ getTopAuthors [c8DocX, c8DocX, c8DocY] 1
    ∧ (⟨"Y", 1, 0, List.replicate 13 0⟩ : AuthorOut).count
        ≤ (⟨"X", 2, 0, List.replicate 13 0⟩ : AuthorOut).count := by
  have hflag : needsNormalization [c8DocX, c8DocX, c8DocY] = true := by
    simp [needsNormalization, sampleSize, sampleTotalGo, docTotal, topicNums,
      List.range', c8DocX, c8DocY]
  have hbuild : authorListF (needsNormalization [c8DocX, c8DocX, c8DocY])
      [c8DocX, c8DocX, c8DocY]
      = [⟨"X", 2, 0, List.replicate 13 0⟩, ⟨"Y", 1, 0, List.replicate 13 0⟩] := by
    rw [hflag]
    simp [authorListF, buildAuthors, authorStep, validAuthor, trimStr, authUpd,
      bookAdd, addDist, mapWithIdx, zeroDist, normVal, docTotal, topicNums,
      List.range', toOut, c8DocX, c8DocY, List.replicate]
  have hsorted : getTopAuthors [c8DocX, c8DocX, c8DocY] 1
      = [⟨"X", 2, 0, List.replicate 13 0⟩] := by
    rw [getTopAuthors, hflag, topAuthorsF, ← hflag, hbuild]
    simp [sortByCount, insertByCount]
  refine ⟨?_, ?_, ?_, ?_⟩
  · rw [hsorted]; simp
  · rw [hbuild]; simp
  · rw [hsorted]; simp
  · exact (getTopAuthors_spec [c8DocX, c8DocX, c8DocY] 1).2.2.1
      ⟨"X", 2, 0, List.replicate 13 0⟩ (by rw [hsorted]; simp)
      ⟨"Y", 1, 0, List.replicate 13 0⟩ (by rw [hbuild]; simp)
      (by rw [hsorted]; simp)

/-! ### Correlation engine — `calculateTopicCorrelations`

Indices are the 0-based matrix indices of the source (`i`, `j` in
`0..12`, slot `i` holding `Topic_(i+1)`).  Everything up to the standard
deviations is exact rational arithmetic; `Math.sqrt` forces `stdDev` and
the correlation entries into `ℝ`.  The `topicStdDevs[i] > 0` guard is a
comparison of the real square root, which is positive exactly when the
rational variance is. -/

/-- `normalizedDocs`: one normalized 13-vector per document, using the
flag sampled from the same collection. -/
def normalizedDocs (docs : List Doc) : List (List ℚ) :=
  docs.map (normList (needsNormalization docs))

/-- `topicMeans[i]` after the division by `docCount`. -/
def topicMeanQ (docs : List Doc) (i : ℕ) : ℚ :=
  ((normalizedDocs docs).map fun v => v.getD i 0).sum / (docs.length : ℚ)

/-- `covarianceMatrix[i][j]` after the division by `docCount`. -/
def covQ (docs : List Doc) (i j : ℕ) : ℚ :=
  ((normalizedDocs docs).map fun v =>
    (v.getD i 0 - topicMeanQ docs i) * (v.getD j 0 - topicMeanQ docs j)).sum
    / (docs.length : ℚ)

/-- `topicVariances[i]`: the un-divided sum of
`Math.pow(normalizedValues[i] - topicMeans[i], 2)`. -/
def varSumQ (docs : List Doc) (i : ℕ) : ℚ :=
  ((normalizedDocs docs).map fun v => (v.getD i 0 - topicMeanQ docs i) ^ 2).sum

/-- The radicand of `topicStdDevs[i] = Math.sqrt(topicVariances[i] / docCount)`. -/
def varQ (docs : List Doc) (i : ℕ) : ℚ := varSumQ docs i / (docs.length : ℚ)

/-- `topicStdDevs[i]`. -/
noncomputable def stdDev (docs : List Doc) (i : ℕ) : ℝ :=
  Real.sqrt ((varQ docs i : ℚ) : ℝ)

open Classical in
/-- `correlationMatrix[i][j]`:
`topicStdDevs[i] > 0 && topicStdDevs[j] > 0 ?
  cov[i][j] / (std_i * std_j) : 0`. -/
noncomputable def corrM (docs : List Doc) (i j : ℕ) : ℝ :=
  if 0 < stdDev docs i ∧ 0 < stdDev docs j then
    ((covQ docs i j : ℚ) : ℝ) / (stdDev docs i * stdDev docs j)
  else 0

theorem list_map_sum_eq_fin {α : Type} (l : List α) (f : α → ℚ) :
    (l.map f).sum = ∑ k : Fin l.length, f (l.get k) := by
  induction l with
  | nil => simp
  | cons a t ih =>
    calc (List.map f (a :: t)).sum = f a + (List.map f t).sum := by simp
    _ = f a + ∑ k : Fin t.length, f (t.get k) := by rw [ih]
    _ = ∑ k : Fin (t.length + 1), f ((a :: t).get k) := by
        rw [Fin.sum_univ_succ]; rfl
    _ = ∑ k : Fin (a :: t).length, f ((a :: t).get k) := rfl

theorem list_cauchy {α : Type} (l : List α) (f g : α → ℚ) :
    ((l.map fun x => f x * g x).sum) ^ 2
      ≤ ((l.map fun x => f x ^ 2).sum) * ((l.map fun x => g x ^ 2).sum) := by
  rw [list_map_sum_eq_fin, list_map_sum_eq_fin, list_map_sum_eq_fin]
  exact Finset.sum_mul_sq_le_sq_mul_sq Finset.univ _ _

theorem varSumQ_nonneg (docs : List Doc) (i : ℕ) : 0 ≤ varSumQ docs i := by
  refine List.sum_nonneg ?_
  intro x hx
  rcases List.mem_map.mp hx with ⟨v, -, rfl⟩
  exact sq_nonneg _

theorem varQ_nonneg (docs : List Doc) (i : ℕ) : 0 ≤ varQ docs i :=
  div_nonneg (varSumQ_nonneg docs i) (Nat.cast_nonneg _)

theorem stdDev_pos_iff (docs : List Doc) (i : ℕ) :
    0 < stdDev docs i ↔ 0 < varQ docs i := by
  rw [stdDev, Real.sqrt_pos]
  exact Rat.cast_pos

theorem covQ_diag (docs : List Doc) (i : ℕ) : covQ docs i i = varQ docs i := by
  rw [covQ, varQ, varSumQ]
  congr 1
  congr 1
  refine List.map_congr_left fun v _ => ?_
  rw [sq]

theorem covQ_comm (docs : List Doc) (i j : ℕ) : covQ docs i j = covQ docs j i := by
  rw [covQ, covQ]
  congr 1
  congr 1
  refine List.map_congr_left fun v _ => ?_
  rw [mul_comm]

theorem varQ_pos_length (docs : List Doc) (i : ℕ) (h : 0 < varQ docs i) :
    (0 : ℚ) < (docs.length : ℚ) := by
  by_contra hN
  have h0 : (docs.length : ℚ) = 0 := le_antisymm (le_of_not_lt hN) (Nat.cast_nonneg _)
  rw [varQ, h0, div_zero] at h
  exact lt_irrefl _ h

theorem covQ_sq_le (docs : List Doc) (i j : ℕ) :
    covQ docs i j ^ 2 ≤ varQ docs i * varQ docs j := by
  have hcs := list_cauchy (normalizedDocs docs)
    (fun v => v.getD i 0 - topicMeanQ docs i)
    (fun v => v.getD j 0 - topicMeanQ docs j)
  by_cases hN : (docs.length : ℚ) = 0
  · rw [covQ, varQ, varQ, hN, div_zero, div_zero, div_zero]
    simp
  · have hNpos : (0 : ℚ) < (docs.length : ℚ) ^ 2 := by
      have : (0 : ℚ) ≤ (docs.length : ℚ) := Nat.cast_nonneg _
      positivity
    rw [covQ, varQ, varQ, varSumQ, div_pow, div_mul_div_comm, ← sq]
    exact (div_le_div_iff_of_pos_right hNpos).mpr hcs

/-- C9: the correlation matrix is symmetric; the diagonal entry is `1`
whenever the topic's variance is positive; an entry is `0` whenever
either topic has zero variance; and every entry lies in `[-1, 1]`
(Cauchy–Schwarz on the centred sums). -/
theorem corrM_spec (docs : List Doc) (i j : Fin 13) :
    corrM docs i j = corrM docs j i
    ∧ (0 < varQ docs i → corrM docs i i = 1)
    ∧ ((varQ docs i = 0 ∨ varQ docs j = 0) → corrM docs i j = 0)
    ∧ (-1 ≤ corrM docs i j ∧ corrM docs i j ≤ 1) := by
  refine ⟨?_, ?_, ?_, ?_⟩
  · by_cases h1 : 0 < stdDev docs i
      <;> by_cases h2 : 0 < stdDev docs j
      <;> simp [corrM, h1, h2, covQ_comm docs i j, mul_comm]
  · intro hv
    have hs : 0 < stdDev docs i := (stdDev_pos_iff docs i).mpr hv
    rw [corrM, if_pos ⟨hs, hs⟩, covQ_diag]
    have hss : stdDev docs i * stdDev docs i = ((varQ docs i : ℚ) : ℝ) :=
      Real.mul_self_sqrt (by exact_mod_cast varQ_nonneg docs i)
    rw [hss]
    exact div_self (by exact_mod_cast ne_of_gt hv)
  · intro hv
    have : ¬ (0 < stdDev docs i ∧ 0 < stdDev docs j) := by
      rintro ⟨h1, h2⟩
      rw [stdDev_pos_iff] at h1 h2
      rcases hv with hv | hv
      · rw [hv] at h1; exact lt_irrefl _ h1
      · rw [hv] at h2; exact lt_irrefl _ h2
    rw [corrM, if_neg this]
  · by_cases hc : 0 < stdDev docs i ∧ 0 < stdDev docs j
    · obtain ⟨h1, h2⟩ := hc
      have hv1 : 0 < varQ docs i := (stdDev_pos_iff docs i).mp h1
      have hv2 : 0 < varQ docs j := (stdDev_pos_iff docs j).mp h2
      have hspos : 0 < stdDev docs i * stdDev docs j := mul_pos h1 h2
      have hsq : (stdDev docs i * stdDev docs j) ^ 2
          = ((varQ docs i : ℚ) : ℝ) * ((varQ docs j : ℚ) : ℝ) := by
        rw [mul_pow, stdDev, stdDev,
          Real.sq_sqrt (by exact_mod_cast varQ_nonneg docs i),
          Real.sq_sqrt (by exact_mod_cast varQ_nonneg docs j)]
      have hcs : (((covQ docs i j : ℚ) : ℝ)) ^ 2
          ≤ (stdDev docs i * stdDev docs j) ^ 2 := by
        rw [hsq]
        exact_mod_cast covQ_sq_le docs i j
      have hle : ((covQ docs i j : ℚ) : ℝ) ≤ stdDev docs i * stdDev docs j := by
        nlinarith [hcs, hspos]
      have hge : -(stdDev docs i * stdDev docs j) ≤ ((covQ docs i j : ℚ) : ℝ) := by
        nlinarith [hcs, hspos]
      rw [corrM, if_pos ⟨h1, h2⟩]
      constructor
      · rw [le_div_iff₀ hspos]
        linarith
      · rw [div_le_one hspos]
        exact hle
    · rw [corrM, if_neg hc]
      norm_num

/-- Documents used to instantiate `corrM_spec`: one with `Topic_1 = 1`
and one with no weights, giving `Topic_1` variance `1/4`. -/
def c9DocA : Doc := ⟨none, none, none, fun k => if k = 1 then some 1 else none⟩

theorem corrM_spec_witness :
    0 < varQ [c9DocA, (default : Doc)] 0
    ∧ corrM [c9DocA, (default : Doc)] 0 0 = 1 := by
  have hflag : needsNormalization [c9DocA, (default : Doc)] = true := by
    rw [needsNormalization, if_neg (by norm_num)]
    rw [decide_eq_true_eq]
    norm_num [sampleSize, sampleTotalGo, docTotal, topicNums, List.range',
      c9DocA, default, Inhabited.default]
  have hvar : varQ [c9DocA, (default : Doc)] 0 = 1 / 4 := by
    simp only [varQ, varSumQ, normalizedDocs, topicMeanQ, hflag]
    norm_num [normList, normVal, docTotal, topicNums, List.range', c9DocA,
      default, Inhabited.default]
  refine ⟨by rw [hvar]; norm_num, ?_⟩
  exact (corrM_spec [c9DocA, (default : Doc)] 0 0).2.1
    (by simp only [Fin.val_zero]; rw [hvar]; norm_num)

/-! ### C10 — the empty collection -/

/-- C10: on the empty collection every aggregator is total and neutral:
the yearly aggregation is the empty mapping, the author ranking is empty
for every `n`, and every correlation entry is `0` (in JS the `0/0`
sample mean and per-topic statistics become `NaN`, `NaN > 0` is false,
and the zero-standard-deviation guard takes the `0` branch; in the
rational embedding `0/0 = 0` and the same guard fires). -/
theorem empty_collection_neutral :
    aggregateBooksByYear [] = []
    ∧ (∀ n, getTopAuthors [] n = [])
    ∧ (∀ i j : ℕ, corrM [] i j = 0) := by
  refine ⟨rfl, fun n => ?_, fun i j => ?_⟩
  · simp [getTopAuthors, topAuthorsF, authorListF, buildAuthors, sortByCount]
  · have hv : varQ ([] : List Doc) i = 0 := by
      simp [varQ, varSumQ, normalizedDocs]
    have hc : ¬ (0 < stdDev [] i ∧ 0 < stdDev [] j) := by
      rintro ⟨h1, -⟩
      rw [stdDev_pos_iff, hv] at h1
      exact lt_irrefl _ h1
    rw [corrM, if_neg hc]

end QazaqLit
